import Mathlib

/-!
Shallow embedding of the reconciliation core of `src/view.rs` (the
brunhild view library): the cached `Node` mirror tree, full rendering
(`Node::new`), per-node diffing (`Node::diff`), attribute diffing
(`Node::diff_attrs`), children-list diffing (`Node::diff_children`),
dirty-id search (`Node::check_marked`) and the `Tree` reconciler.

Mutation JavaScript calls (`js!` blocks) are embedded as explicit
`Cmd` values returned alongside the updated state; the inline removal
loop of `diff_children` is additionally embedded as `jsRemoveLoop`
so that its effect on the rendering surface can be analysed.
-/

namespace Brunhild

/-- Attributes of a view's root element; embeds
`BTreeMap<String, Option<String>>` as its ordered list of entries. -/
abbrev Attributes := List (String × Option String)

/-- Mutation commands emitted to the rendering surface.  Each constructor
embeds one of the `js!` calls of `src/view.rs` (abstracting the script
text as the command of spec section 6 with the arguments the code passes). -/
inductive Cmd where
  | ReplaceElement (oldId newMarkup : String)
  | ReplaceContent (id newMarkup : String)
  | RemoveTrailingChildren (parentId : String) (count : Nat)
  | AppendChild (parentId markup : String)
deriving DecidableEq

/-- A live view: one concrete instance of the `View` trait, with the
results of its methods `id()`, `tag()`, `attrs()`, `render_inner()`
(the string it appends), `state()` and `children()` stored as fields. -/
inductive View where
  | mk (id tag : String) (attrs : Attributes) (inner : String)
       (state : Nat) (children : List View)

def View.id : View → String
  | .mk i _ _ _ _ _ => i

def View.tag : View → String
  | .mk _ t _ _ _ _ => t

def View.attrs : View → Attributes
  | .mk _ _ a _ _ _ => a

def View.inner : View → String
  | .mk _ _ _ inn _ _ => inn

def View.state : View → Nat
  | .mk _ _ _ _ st _ => st

def View.children : View → List View
  | .mk _ _ _ _ _ ch => ch

/-- The cached mirror `struct Node` of `src/view.rs`:
tag, id, value (reserved for input-element state), state fingerprint,
attribute snapshot, children. -/
inductive Node where
  | mk (tag id value : String) (state : Nat) (attrs : Attributes)
       (children : List Node)

def Node.tag : Node → String
  | .mk t _ _ _ _ _ => t

def Node.id : Node → String
  | .mk _ i _ _ _ _ => i

def Node.value : Node → String
  | .mk _ _ val _ _ _ => val

def Node.state : Node → Nat
  | .mk _ _ _ st _ _ => st

def Node.attrs : Node → Attributes
  | .mk _ _ _ _ a _ => a

def Node.children : Node → List Node
  | .mk _ _ _ _ _ ch => ch

/-- `self.state = state` on a `Node`. -/
def Node.withState : Node → Nat → Node
  | .mk t i val _ a ch, st => .mk t i val st a ch

/-- `self.attrs = attrs` on a `Node`. -/
def Node.withAttrs : Node → Attributes → Node
  | .mk t i val st _ ch, a => .mk t i val st a ch

/-- Replacing the children list of a `Node` (the net effect of the
in-place `iter_mut`/`truncate`/`push` mutations of `diff_children`). -/
def Node.withChildren : Node → List Node → Node
  | .mk t i val st a _, ch => .mk t i val st a ch

/-- Attribute rendering inside `Node::new`:
`write!(w, " {}", key)`, then `=\"{}\"` when the value is present. -/
def renderAttrs : Attributes → String
  | [] => ""
  | (k, none) :: rest => " " ++ k ++ renderAttrs rest
  | (k, some v) :: rest => " " ++ k ++ "=\"" ++ v ++ "\"" ++ renderAttrs rest

mutual
/-- Embeds `Node::new`: renders the opening tag with id and attributes,
the inner content, all children recursively, and the closing tag into
the output buffer, and returns the constructed `Node` (with `value`
initialised to the empty string) together with the markup appended. -/
def Node.new : View → Node × String
  | View.mk i t a inn st ch =>
    let sub := Node.newList ch
    (Node.mk t i "" st a sub.1,
     "<" ++ t ++ " id=\"" ++ i ++ "\"" ++ renderAttrs a ++ ">"
       ++ inn ++ sub.2 ++ "</" ++ t ++ ">")

/-- The `v.children().iter().map(|v| Node::new(v, w)).collect()` loop of
`Node::new`: children constructed in order, markup concatenated in order. -/
def Node.newList : List View → List Node × String
  | [] => ([], "")
  | v :: vs =>
    let p := Node.new v
    let q := Node.newList vs
    (p.1 :: q.1, p.2 ++ q.2)
end

example :
    Node.new (View.mk "a" "div" [("class", some "x"), ("d", none)] "hi" 7
      [View.mk "b" "span" [] "in" 3 []]) =
    (Node.mk "div" "a" "" 7 [("class", some "x"), ("d", none)]
      [Node.mk "span" "b" "" 3 [] []],
     "<div id=\"a\" class=\"x\" d>hi<span id=\"b\">in</span></div>") := rfl

/-- Embeds `append_element`: the script parses the markup and appends it
as the last child of the element with id `parent_id`. -/
def append_element (parent_id html : String) : Cmd :=
  Cmd.AppendChild parent_id html

/-- Embeds `Node::diff_attrs`: if the cached snapshot equals the new
attributes, nothing happens; otherwise the snapshot is replaced.  The
source contains no `js!` call here (only a TODO), so the emitted command
list is empty on both paths. -/
def Node.diff_attrs (n : Node) (attrs : Attributes) : Node × List Cmd :=
  if n.attrs = attrs then (n, [])
  else (n.withAttrs attrs, [])

/-- The number of `el.lastChild.remove()` calls performed by the script
emitted for child removal in `Node::diff_children`:
`for (let i = 0; i <= $1; i++) el.lastChild.remove()` where `$1` is the
`count` argument passed with the command. -/
def jsRemoveLoop (i count : Nat) : Nat :=
  if i ≤ count then jsRemoveLoop (i + 1) count + 1 else 0
termination_by count + 1 - i
decreasing_by omega

/-- The append loop of `Node::diff_children` (`diff > 0` branch): each
remaining view is fully rendered by `Node::new`, its node collected in
order, and one `append_element` command emitted per view, in order. -/
def Node.appendNew (parentId : String) : List View → List Node × List Cmd
  | [] => ([], [])
  | v :: vs =>
    let p := Node.new v
    let q := Node.appendNew parentId vs
    (p.1 :: q.1, append_element parentId p.2 :: q.2)

mutual
/-- Embeds `Node::diff`.  The children-diff phase of the source, the
call `self.diff_children(children)`, is written inline here (because
the recursion is mutual with `Node.diffZip`); the standalone definition
`Node.diff_children` below repeats it verbatim, and
`Node.diff_eq_diff_children` proves the two agree. -/
def Node.diff (n : Node) : View → Node × List Cmd
  | View.mk vi vt va vinn vst vch =>
    -- Completely replace node and subtree
    if vi ≠ n.id then
      let p := Node.new (View.mk vi vt va vinn vst vch)
      (p.1, [Cmd.ReplaceElement n.id p.2])
    else
      let r :=
        if vst ≠ n.state then Node.diff_attrs (n.withState vst) va
        else (n, ([] : List Cmd))
      if r.1.children.length = 0 ∧ vch.length = 0 then
        if vst ≠ n.state then
          (r.1, r.2 ++ [Cmd.ReplaceContent r.1.id vinn])
        else (r.1, r.2)
      else
        -- self.diff_children(children), inlined
        let cur := r.1.children
        let d : Int := (vch.length : Int) - (cur.length : Int)
        let rem :=
          if d < 0 then
            (cur.take vch.length,
             [Cmd.RemoveTrailingChildren r.1.id (-d).toNat])
          else (cur, ([] : List Cmd))
        let z := Node.diffZip rem.1 vch
        let app :=
          if 0 < d then Node.appendNew r.1.id (vch.drop cur.length)
          else (([] : List Node), ([] : List Cmd))
        (r.1.withChildren (z.1 ++ app.1), r.2 ++ (rem.2 ++ z.2 ++ app.2))

/-- The `self.children.iter_mut().zip(views.iter())` loop of
`Node::diff_children`: positional pairs are diffed in order; nodes
beyond the length of the view list are left untouched. -/
def Node.diffZip : List Node → List View → List Node × List Cmd
  | ns, [] => (ns, [])
  | [], _ :: _ => ([], [])
  | n :: ns, v :: vs =>
    let p := Node.diff n v
    let q := Node.diffZip ns vs
    (p.1 :: q.1, p.2 ++ q.2)
end

/-- Embeds `Node::diff_children`: compute
`diff = views.len() - self.children.len()`; if negative, emit the
removal command and truncate the cached list; diff positional pairs;
if positive, render and append the extra views, one `append_element`
command each. -/
def Node.diff_children (n : Node) (views : List View) : Node × List Cmd :=
  let cur := n.children
  let d : Int := (views.length : Int) - (cur.length : Int)
  let rem :=
    if d < 0 then
      (cur.take views.length,
       [Cmd.RemoveTrailingChildren n.id (-d).toNat])
    else (cur, ([] : List Cmd))
  let z := Node.diffZip rem.1 views
  let app :=
    if 0 < d then Node.appendNew n.id (views.drop cur.length)
    else (([] : List Node), ([] : List Cmd))
  (n.withChildren (z.1 ++ app.1), rem.2 ++ z.2 ++ app.2)

mutual
/-- Embeds `Node::check_marked`: a marked node is removed from the set
and diffed (and the walk does not descend further below it); an unmarked
node's children are searched pairwise against the view's children. -/
def Node.check_marked (n : Node) (marked : Finset String) :
    View → Node × Finset String × List Cmd
  | View.mk vi vt va vinn vst vch =>
    if n.id ∈ marked then
      let p := Node.diff n (View.mk vi vt va vinn vst vch)
      (p.1, marked.erase n.id, p.2)
    else
      let r := Node.checkMarkedList n.children marked vch
      (n.withChildren r.1, r.2.1, r.2.2)

/-- The `self.children.iter_mut().zip(v.children().iter())` loop of
`Node::check_marked`, threading the dirty set left to right. -/
def Node.checkMarkedList : List Node → Finset String → List View →
    List Node × Finset String × List Cmd
  | ns, m, [] => (ns, m, [])
  | [], m, _ :: _ => ([], m, [])
  | n :: ns, m, v :: vs =>
    let p := Node.check_marked n m v
    let q := Node.checkMarkedList ns p.2.1 vs
    (p.1 :: q.1, q.2.1, p.2.2 ++ q.2.2)
end

/-- Embeds `struct Tree`: the cached root node and the dirty id set
(`updated`, a `HashSet<String>` modelled as a `Finset`).  The shared
`view` handle is passed explicitly to the operations instead. -/
structure Tree where
  node : Node
  updated : Finset String

/-- Embeds `Tree::new`: full initial render of the root view, one
`append_element(parent_id, markup)` emission, empty dirty set. -/
def Tree.new (parent_id : String) (v : View) : Tree × List Cmd :=
  let p := Node.new v
  (⟨p.1, ∅⟩, [append_element parent_id p.2])

/-- Embeds `Tree::diff`: run `check_marked` from the root with the
current dirty set, then `self.updated.clear()`. -/
def Tree.diff (t : Tree) (v : View) : Tree × List Cmd :=
  let r := Node.check_marked t.node t.updated v
  (⟨r.1, ∅⟩, r.2.2)

/-- Embeds `Tree::update`: insert the view's id into the dirty set. -/
def Tree.update (t : Tree) (v : View) : Tree :=
  ⟨t.node, insert v.id t.updated⟩

/-! ### Specification predicates -/

mutual
/-- The cached node mirrors the view: same id, and the children lists
correspond positionally (in particular they have equal length). -/
def mirrors : Node → View → Bool
  | Node.mk _ ni _ _ _ nch, View.mk vi _ _ _ _ vch =>
    ni == vi && mirrorsList nch vch

/-- Positional correspondence of a cached children list with a live one. -/
def mirrorsList : List Node → List View → Bool
  | [], [] => true
  | _ :: _, [] => false
  | [], _ :: _ => false
  | n :: ns, v :: vs => mirrors n v && mirrorsList ns vs
end

mutual
/-- The view is unchanged relative to the cached node: same id, same
state fingerprint, same attributes, and recursively unchanged children
lists of equal length. -/
def unchangedB : Node → View → Bool
  | Node.mk _ ni _ ns na nch, View.mk vi _ va _ vs vch =>
    ni == vi && ns == vs && na == va && unchangedListB nch vch

/-- Pointwise `unchangedB` over children lists of equal length. -/
def unchangedListB : List Node → List View → Bool
  | [], [] => true
  | _ :: _, [] => false
  | [], _ :: _ => false
  | n :: ns, v :: vs => unchangedB n v && unchangedListB ns vs
end

mutual
/-- Every `value` slot in the cached tree is the empty string. -/
def valuesEmpty : Node → Bool
  | Node.mk _ _ val _ _ ch => val == "" && valuesEmptyList ch

/-- `valuesEmpty` over a children list. -/
def valuesEmptyList : List Node → Bool
  | [] => true
  | n :: ns => valuesEmpty n && valuesEmptyList ns
end

mutual
/-- All ids occurring in a cached tree. -/
def nodeIds : Node → List String
  | Node.mk _ i _ _ _ ch => i :: nodeIdsList ch

/-- All ids occurring in a list of cached trees. -/
def nodeIdsList : List Node → List String
  | [] => []
  | n :: ns => nodeIds n ++ nodeIdsList ns
end

/-- Lookup of an attribute key in an attribute list: `none` when the key
is absent, `some none` when present with no value, `some (some s)` when
present with value `s`. -/
def lookupAttr (k : String) : Attributes → Option (Option String)
  | [] => none
  | p :: rest => if p.1 = k then some p.2 else lookupAttr k rest

/-- The attribute list is strictly sorted by key, as the entry list of a
`BTreeMap` always is. -/
def sortedKeys : Attributes → Bool
  | [] => true
  | [_] => true
  | p :: q :: rest => decide (p.1 < q.1) && sortedKeys (q :: rest)

/-! ### Basic lemmas -/

/-- Simultaneous induction over a view and its nested children lists. -/
theorem view_ind (P : View → Prop) (Q : List View → Prop)
    (hmk : ∀ i t a inn st ch, Q ch → P (View.mk i t a inn st ch))
    (hnil : Q []) (hcons : ∀ v vs, P v → Q vs → Q (v :: vs)) :
    (∀ v, P v) ∧ (∀ vs, Q vs) := by
  have key : ∀ v : View, P v ∧ Q v.children := fun v =>
    @View.rec (fun v => P v ∧ Q v.children) (fun vs => Q vs)
      (fun i t a inn st ch hch => ⟨hmk i t a inn st ch hch, hch⟩)
      hnil
      (fun v vs hv hvs => hcons v vs hv.1 hvs) v
  exact ⟨fun v => (key v).1, fun vs => (key (View.mk "" "" [] "" 0 vs)).2⟩

@[simp] theorem View.id_mk (i t : String) (a : Attributes) (inn : String)
    (st : Nat) (ch : List View) : (View.mk i t a inn st ch).id = i := rfl

@[simp] theorem View.tag_mk (i t : String) (a : Attributes) (inn : String)
    (st : Nat) (ch : List View) : (View.mk i t a inn st ch).tag = t := rfl

@[simp] theorem View.attrs_mk (i t : String) (a : Attributes) (inn : String)
    (st : Nat) (ch : List View) : (View.mk i t a inn st ch).attrs = a := rfl

@[simp] theorem View.inner_mk (i t : String) (a : Attributes) (inn : String)
    (st : Nat) (ch : List View) : (View.mk i t a inn st ch).inner = inn := rfl

@[simp] theorem View.state_mk (i t : String) (a : Attributes) (inn : String)
    (st : Nat) (ch : List View) : (View.mk i t a inn st ch).state = st := rfl

@[simp] theorem View.children_mk (i t : String) (a : Attributes) (inn : String)
    (st : Nat) (ch : List View) : (View.mk i t a inn st ch).children = ch := rfl

@[simp] theorem Node.tag_mk_node (t i val : String) (st : Nat) (a : Attributes)
    (ch : List Node) : (Node.mk t i val st a ch).tag = t := rfl

@[simp] theorem Node.id_mk_node (t i val : String) (st : Nat) (a : Attributes)
    (ch : List Node) : (Node.mk t i val st a ch).id = i := rfl

@[simp] theorem Node.value_mk_node (t i val : String) (st : Nat) (a : Attributes)
    (ch : List Node) : (Node.mk t i val st a ch).value = val := rfl

@[simp] theorem Node.state_mk_node (t i val : String) (st : Nat) (a : Attributes)
    (ch : List Node) : (Node.mk t i val st a ch).state = st := rfl

@[simp] theorem Node.attrs_mk_node (t i val : String) (st : Nat) (a : Attributes)
    (ch : List Node) : (Node.mk t i val st a ch).attrs = a := rfl

@[simp] theorem Node.children_mk_node (t i val : String) (st : Nat) (a : Attributes)
    (ch : List Node) : (Node.mk t i val st a ch).children = ch := rfl

theorem Node.withState_eq (n : Node) (st : Nat) :
    n.withState st = Node.mk n.tag n.id n.value st n.attrs n.children := by
  cases n; rfl

theorem Node.withAttrs_eq (n : Node) (a : Attributes) :
    n.withAttrs a = Node.mk n.tag n.id n.value n.state a n.children := by
  cases n; rfl

theorem Node.withChildren_eq (n : Node) (ch : List Node) :
    n.withChildren ch = Node.mk n.tag n.id n.value n.state n.attrs ch := by
  cases n; rfl

@[simp] theorem Node.withChildren_self (n : Node) :
    n.withChildren n.children = n := by cases n; rfl

@[simp] theorem Node.diff_attrs_snd (n : Node) (a : Attributes) :
    (Node.diff_attrs n a).2 = [] := by
  unfold Node.diff_attrs; split <;> rfl

theorem Node.diff_attrs_fst (n : Node) (a : Attributes) :
    (Node.diff_attrs n a).1 =
      Node.mk n.tag n.id n.value n.state
        (if n.attrs = a then n.attrs else a) n.children := by
  unfold Node.diff_attrs
  by_cases h : n.attrs = a
  · rw [if_pos h, if_pos h]
    cases n; rfl
  · rw [if_neg h, if_neg h, Node.withAttrs_eq]

@[simp] theorem Node.diff_attrs_tag (n : Node) (a : Attributes) :
    (Node.diff_attrs n a).1.tag = n.tag := by rw [Node.diff_attrs_fst]; rfl

@[simp] theorem Node.diff_attrs_id (n : Node) (a : Attributes) :
    (Node.diff_attrs n a).1.id = n.id := by rw [Node.diff_attrs_fst]; rfl

@[simp] theorem Node.diff_attrs_value (n : Node) (a : Attributes) :
    (Node.diff_attrs n a).1.value = n.value := by rw [Node.diff_attrs_fst]; rfl

@[simp] theorem Node.diff_attrs_state (n : Node) (a : Attributes) :
    (Node.diff_attrs n a).1.state = n.state := by rw [Node.diff_attrs_fst]; rfl

@[simp] theorem Node.diff_attrs_children (n : Node) (a : Attributes) :
    (Node.diff_attrs n a).1.children = n.children := by
  rw [Node.diff_attrs_fst]; rfl

/-- The append loop is a map: one fully rendered node and one
`AppendChild` command per extra view, in order. -/
theorem Node.appendNew_eq (pid : String) (vs : List View) :
    Node.appendNew pid vs =
      (vs.map (fun v => (Node.new v).1),
       vs.map (fun v => Cmd.AppendChild pid (Node.new v).2)) := by
  induction vs with
  | nil => rfl
  | cons v vs ih => simp [Node.appendNew, append_element, ih]

@[simp] theorem Node.withState_tag (n : Node) (st : Nat) :
    (n.withState st).tag = n.tag := by rw [Node.withState_eq]; rfl

@[simp] theorem Node.withState_id (n : Node) (st : Nat) :
    (n.withState st).id = n.id := by rw [Node.withState_eq]; rfl

@[simp] theorem Node.withState_value (n : Node) (st : Nat) :
    (n.withState st).value = n.value := by rw [Node.withState_eq]; rfl

@[simp] theorem Node.withState_state (n : Node) (st : Nat) :
    (n.withState st).state = st := by rw [Node.withState_eq]; rfl

@[simp] theorem Node.withState_attrs (n : Node) (st : Nat) :
    (n.withState st).attrs = n.attrs := by rw [Node.withState_eq]; rfl

@[simp] theorem Node.withState_children (n : Node) (st : Nat) :
    (n.withState st).children = n.children := by rw [Node.withState_eq]; rfl

@[simp] theorem Node.withChildren_tag (n : Node) (ch : List Node) :
    (n.withChildren ch).tag = n.tag := by rw [Node.withChildren_eq]; rfl

@[simp] theorem Node.withChildren_id (n : Node) (ch : List Node) :
    (n.withChildren ch).id = n.id := by rw [Node.withChildren_eq]; rfl

@[simp] theorem Node.withChildren_value (n : Node) (ch : List Node) :
    (n.withChildren ch).value = n.value := by rw [Node.withChildren_eq]; rfl

@[simp] theorem Node.withChildren_state (n : Node) (ch : List Node) :
    (n.withChildren ch).state = n.state := by rw [Node.withChildren_eq]; rfl

@[simp] theorem Node.withChildren_attrs (n : Node) (ch : List Node) :
    (n.withChildren ch).attrs = n.attrs := by rw [Node.withChildren_eq]; rfl

@[simp] theorem Node.withChildren_children (n : Node) (ch : List Node) :
    (n.withChildren ch).children = ch := by rw [Node.withChildren_eq]; rfl

/-- Bridge between `Node.diff` (where the source's call
`self.diff_children(children)` is inlined) and the standalone
`Node.diff_children`: on matching ids, when the pair is not a leaf pair,
the per-node diff is the state/attribute phase followed by the children
diff of the updated node. -/
theorem Node.diff_container (n : Node) (v : View) (hid : v.id = n.id)
    (hch : ¬(n.children.length = 0 ∧ v.children.length = 0)) :
    Node.diff n v =
      Node.diff_children
        (if v.state ≠ n.state
         then ((n.withState v.state).diff_attrs v.attrs).1
         else n)
        v.children := by
  cases v with
  | mk vi vt va vinn vst vch =>
    simp only [View.id_mk, View.state_mk, View.attrs_mk, View.children_mk]
      at hid hch ⊢
    by_cases hst : vst = n.state
    · simp [Node.diff, Node.diff_children, hid, hst]
      intro h1 h2
      exact absurd (by simp [h1, h2]) hch
    · simp [Node.diff, Node.diff_children, hid, hst]
      intro h1 h2
      exact absurd (by simp [h1, h2]) hch

/-- C2: if the live view's id differs from the cached node's id, the
cached slot is replaced by the full re-render of the live view and the
single command emitted for the whole subtree is
`ReplaceElement(oldId, newMarkup)`. -/
theorem c2_identity_mismatch_full_replace (n : Node) (v : View)
    (h : v.id ≠ n.id) :
    Node.diff n v = ((Node.new v).1, [Cmd.ReplaceElement n.id (Node.new v).2]) := by
  cases v with
  | mk vi vt va vinn vst vch =>
    simp only [View.id_mk] at h
    simp [Node.diff, h]

/-- C2 witness: a concrete id change yields exactly the one
`ReplaceElement` command. -/
theorem c2_witness :
    (View.mk "b" "div" [] "x" 1 []).id ≠ (Node.mk "div" "a" "" 0 [] []).id ∧
    Node.diff (Node.mk "div" "a" "" 0 [] []) (View.mk "b" "div" [] "x" 1 []) =
      ((Node.new (View.mk "b" "div" [] "x" 1 [])).1,
       [Cmd.ReplaceElement "a" (Node.new (View.mk "b" "div" [] "x" 1 [])).2]) :=
  ⟨by decide,
   c2_identity_mismatch_full_replace (Node.mk "div" "a" "" 0 [] [])
     (View.mk "b" "div" [] "x" 1 []) (by decide)⟩

/-- C3: for a childless pair with equal ids, a changed fingerprint
yields exactly one `ReplaceContent(id, newInnerMarkup)` command and the
cached fingerprint is updated to the live value; an unchanged
fingerprint yields no command and leaves the cache unchanged. -/
theorem c3_leaf_content (n : Node) (v : View) (hid : v.id = n.id)
    (hnc : n.children = []) (hvc : v.children = []) :
    (v.state ≠ n.state →
      Node.diff n v =
        (((n.withState v.state).diff_attrs v.attrs).1,
         [Cmd.ReplaceContent n.id v.inner]) ∧
      (Node.diff n v).1.state = v.state) ∧
    (v.state = n.state → Node.diff n v = (n, [])) := by
  cases v with
  | mk vi vt va vinn vst vch =>
    simp only [View.id_mk, View.state_mk, View.attrs_mk, View.inner_mk,
      View.children_mk] at hid hvc ⊢
    subst hvc
    constructor
    · intro hst
      constructor
      · simp [Node.diff, hid, hst, hnc]
      · simp [Node.diff, hid, hst, hnc]
    · intro hst
      simp [Node.diff, hid, hst, hnc]

/-- C3 witness: concrete leaf update and concrete leaf no-op. -/
theorem c3_witness :
    ((View.mk "a" "div" [] "x" 6 []).id = (Node.mk "div" "a" "" 5 [] []).id ∧
     (Node.mk "div" "a" "" 5 [] []).children = [] ∧
     (View.mk "a" "div" [] "x" 6 []).children = [] ∧
     (View.mk "a" "div" [] "x" 6 []).state ≠ (Node.mk "div" "a" "" 5 [] []).state) ∧
    Node.diff (Node.mk "div" "a" "" 5 [] []) (View.mk "a" "div" [] "x" 6 []) =
      ((((Node.mk "div" "a" "" 5 [] []).withState 6).diff_attrs []).1,
       [Cmd.ReplaceContent "a" "x"]) ∧
    (Node.diff (Node.mk "div" "a" "" 5 [] []) (View.mk "a" "div" [] "x" 6 [])).1.state = 6 :=
  ⟨⟨rfl, rfl, rfl, by decide⟩,
   ((c3_leaf_content (Node.mk "div" "a" "" 5 [] [])
       (View.mk "a" "div" [] "x" 6 []) rfl rfl rfl).1
     (by decide)).1,
   ((c3_leaf_content (Node.mk "div" "a" "" 5 [] [])
       (View.mk "a" "div" [] "x" 6 []) rfl rfl rfl).1
     (by decide)).2⟩

/-- C4: when the live children list is longer, the children diff first
diffs positional pairs in order, then renders each extra live child,
appends its node to the cached list, and emits one
`AppendChild(nodeId, markup)` per new child, in order. -/
theorem c4_grow_appends_in_order (n : Node) (views : List View)
    (h : n.children.length < views.length) :
    Node.diff_children n views =
      (n.withChildren
        ((Node.diffZip n.children views).1 ++
          (views.drop n.children.length).map (fun v => (Node.new v).1)),
       (Node.diffZip n.children views).2 ++
         (views.drop n.children.length).map
           (fun v => Cmd.AppendChild n.id (Node.new v).2)) := by
  unfold Node.diff_children
  have h1 : ¬((views.length : Int) - (n.children.length : Int) < 0) := by
    omega
  have h2 : (0 : Int) < (views.length : Int) - (n.children.length : Int) := by
    omega
  simp [h1, h2, Node.appendNew_eq, append_element]

/-- C4 witness: cached `[A,B]` against live `[A,B,C,D]` gives the
positional diffs of A and B followed by `AppendChild` for C then D. -/
theorem c4_witness :
    (Node.mk "div" "p" "" 0 []
        [Node.mk "div" "A" "" 1 [] [], Node.mk "div" "B" "" 2 [] []]).children.length <
      [View.mk "A" "div" [] "" 1 [], View.mk "B" "div" [] "" 2 [],
       View.mk "C" "div" [] "c" 3 [], View.mk "D" "div" [] "d" 4 []].length ∧
    Node.diff_children
        (Node.mk "div" "p" "" 0 []
          [Node.mk "div" "A" "" 1 [] [], Node.mk "div" "B" "" 2 [] []])
        [View.mk "A" "div" [] "" 1 [], View.mk "B" "div" [] "" 2 [],
         View.mk "C" "div" [] "c" 3 [], View.mk "D" "div" [] "d" 4 []] =
      (Node.mk "div" "p" "" 0 []
        [Node.mk "div" "A" "" 1 [] [], Node.mk "div" "B" "" 2 [] [],
         Node.mk "div" "C" "" 3 [] [], Node.mk "div" "D" "" 4 [] []],
       [Cmd.AppendChild "p" "<div id=\"C\">c</div>",
        Cmd.AppendChild "p" "<div id=\"D\">d</div>"]) := by
  constructor
  · decide
  · have := c4_grow_appends_in_order
      (Node.mk "div" "p" "" 0 []
        [Node.mk "div" "A" "" 1 [] [], Node.mk "div" "B" "" 2 [] []])
      [View.mk "A" "div" [] "" 1 [], View.mk "B" "div" [] "" 2 [],
       View.mk "C" "div" [] "c" 3 [], View.mk "D" "div" [] "d" 4 []]
      (by decide)
    rw [this]
    rfl

/-- C1 is falsified by the code: on shrink from four cached children to
two live children exactly one `RemoveTrailingChildren("p", 2)` command
is emitted and the cache is truncated to two entries, but the emitted
script's loop (`for (let i = 0; i <= count; i++) el.lastChild.remove()`,
embedded as `jsRemoveLoop`) performs three removals, not the two the
claim and the command table require. -/
theorem sortedKeys_tail (p : String × Option String) (l : Attributes)
    (h : sortedKeys (p :: l) = true) : sortedKeys l = true := by
  cases l with
  | nil => rfl
  | cons q rest => simp [sortedKeys] at h; exact h.2

theorem sorted_head_lt (p : String × Option String) (l : Attributes)
    (h : sortedKeys (p :: l) = true) : ∀ q ∈ l, p.1 < q.1 := by
  induction l generalizing p with
  | nil => simp
  | cons q rest ih =>
    intro r hr
    have h1 : p.1 < q.1 := by
      simp only [sortedKeys, Bool.and_eq_true, decide_eq_true_eq] at h
      exact h.1
    rcases List.mem_cons.1 hr with h2 | h2
    · exact h2 ▸ h1
    · exact lt_trans h1 (ih q (sortedKeys_tail p (q :: rest) h) r h2)

theorem lookupAttr_eq_none (k : String) (l : Attributes)
    (h : ∀ q ∈ l, k < q.1) : lookupAttr k l = none := by
  induction l with
  | nil => rfl
  | cons p rest ih =>
    have hne : p.1 ≠ k := (h p (List.mem_cons_self p rest)).ne'
    simp [lookupAttr, hne]
    exact ih fun q hq => h q (List.mem_cons_of_mem p hq)

theorem lookupAttr_mem (k : String) (l : Attributes) (w : Option String)
    (h : lookupAttr k l = some w) : ∃ p ∈ l, p.1 = k := by
  induction l with
  | nil => simp [lookupAttr] at h
  | cons p rest ih =>
    by_cases hp : p.1 = k
    · exact ⟨p, List.mem_cons_self p rest, hp⟩
    · simp [lookupAttr, hp] at h
      obtain ⟨q, hq, hqk⟩ := ih h
      exact ⟨q, List.mem_cons_of_mem p hq, hqk⟩

/-- Two attribute lists that are strictly sorted by key are equal
exactly when every key looks up to the same optional value (a key
present with no value being distinct from an absent key). -/
theorem attrs_ext (l1 l2 : Attributes) (s1 : sortedKeys l1 = true)
    (s2 : sortedKeys l2 = true)
    (h : ∀ k, lookupAttr k l1 = lookupAttr k l2) : l1 = l2 := by
  induction l1 generalizing l2 with
  | nil =>
    cases l2 with
    | nil => rfl
    | cons q u => have := h q.1; simp [lookupAttr] at this
  | cons p t ih =>
    cases l2 with
    | nil => have := h p.1; simp [lookupAttr] at this
    | cons q u =>
      by_cases hpq : p.1 = q.1
      · have hval : p.2 = q.2 := by
          have := h p.1
          simp [lookupAttr, hpq.symm] at this
          exact this
        have htails : ∀ k, lookupAttr k t = lookupAttr k u := by
          intro k
          by_cases hk : k = p.1
          · rw [hk, lookupAttr_eq_none p.1 t (sorted_head_lt p t s1),
              lookupAttr_eq_none p.1 u (by rw [hpq]; exact sorted_head_lt q u s2)]
          · have hk1 : p.1 ≠ k := fun e => hk e.symm
            have hk2 : q.1 ≠ k := fun e => hk (hpq ▸ e).symm
            have := h k
            simpa [lookupAttr, hk1, hk2] using this
        have hhead : p = q := Prod.ext hpq hval
        rw [hhead, ih u (sortedKeys_tail p t s1) (sortedKeys_tail q u s2) htails]
      · exfalso
        have h1 := h p.1
        have h2 := h q.1
        have hqp : q.1 ≠ p.1 := fun e => hpq e.symm
        simp [lookupAttr, hqp] at h1
        simp [lookupAttr, hpq] at h2
        obtain ⟨r, hr, hrk⟩ := lookupAttr_mem p.1 u p.2 h1.symm
        obtain ⟨r', hr', hrk'⟩ := lookupAttr_mem q.1 t q.2 h2
        have hlt1 : q.1 < p.1 := hrk ▸ sorted_head_lt q u s2 r hr
        have hlt2 : p.1 < q.1 := hrk' ▸ sorted_head_lt p t s1 r' hr'
        exact lt_asymm hlt1 hlt2

/-- C7: the attribute diff compares the cached snapshot with the new
attributes under exact equality (for sorted snapshots this is the same
as agreement of every key lookup, presence with no value being distinct
from absence): on equality nothing is mutated, on inequality only the
`attrs` field of the node is replaced; in both cases no mutation command
is emitted. -/
theorem c7_attrs_exact_equality_no_emission (n : Node) (a : Attributes) :
    (n.attrs = a → Node.diff_attrs n a = (n, [])) ∧
    (n.attrs ≠ a →
      Node.diff_attrs n a =
        (Node.mk n.tag n.id n.value n.state a n.children, [])) ∧
    (sortedKeys n.attrs = true → sortedKeys a = true →
      (n.attrs = a ↔ ∀ k, lookupAttr k n.attrs = lookupAttr k a)) := by
  refine ⟨fun h => by simp [Node.diff_attrs, h], fun h => ?_, fun s1 s2 => ?_⟩
  · simp [Node.diff_attrs, h, Node.withAttrs_eq]
  · exact ⟨fun h k => by rw [h], fun h => attrs_ext n.attrs a s1 s2 h⟩

/-- C7 witness: the snapshot with `disabled` present-but-valueless
differs from the one lacking it; the diff replaces only the snapshot
and emits nothing. -/
theorem c7_witness :
    ((Node.mk "div" "a" "" 0 [("class", some "a"), ("disabled", none)] []).attrs ≠
        [("class", some "a")] ∧
      sortedKeys
        (Node.mk "div" "a" "" 0 [("class", some "a"), ("disabled", none)] []).attrs = true ∧
      sortedKeys ([("class", some "a")] : Attributes) = true) ∧
    Node.diff_attrs
        (Node.mk "div" "a" "" 0 [("class", some "a"), ("disabled", none)] [])
        [("class", some "a")] =
      (Node.mk "div" "a" "" 0 [("class", some "a")] [], []) ∧
    ¬(([("class", some "a"), ("disabled", none)] : Attributes) = [("class", some "a")] ∧
        ∀ k, lookupAttr k [("class", some "a"), ("disabled", none)] =
          lookupAttr k [("class", some "a")]) :=
  ⟨⟨by decide,
    by simp [sortedKeys]; exact List.Lex.rel (by decide),
    rfl⟩,
   (c7_attrs_exact_equality_no_emission
       (Node.mk "div" "a" "" 0 [("class", some "a"), ("disabled", none)] [])
       [("class", some "a")]).2.1 (by decide),
   fun hc =>
     absurd
       (((c7_attrs_exact_equality_no_emission
             (Node.mk "div" "a" "" 0 [("class", some "a"), ("disabled", none)] [])
             [("class", some "a")]).2.2
           (by simp [sortedKeys]; exact List.Lex.rel (by decide)) rfl).2 hc.2)
       (by decide)⟩

/-! ### The mirror invariant (C9) -/

theorem new_mirrors :
    (∀ v, mirrors (Node.new v).1 v = true) ∧
    (∀ vs, mirrorsList (Node.newList vs).1 vs = true) := by
  refine view_ind _ _ ?_ ?_ ?_
  · intro i t a inn st ch hch
    simp [Node.new, mirrors, hch]
  · rfl
  · intro v vs hv hvs
    simp [Node.newList, mirrorsList, hv, hvs]

theorem map_new_mirrors (vs : List View) :
    mirrorsList (vs.map (fun v => (Node.new v).1)) vs = true := by
  induction vs with
  | nil => rfl
  | cons v vs ih => simp [mirrorsList, new_mirrors.1 v, ih]

theorem mirrorsList_length (ns : List Node) (vs : List View)
    (h : mirrorsList ns vs = true) : ns.length = vs.length := by
  induction ns generalizing vs with
  | nil => cases vs with
    | nil => rfl
    | cons v vs => simp [mirrorsList] at h
  | cons n ns ih =>
    cases vs with
    | nil => simp [mirrorsList] at h
    | cons v vs =>
      simp only [mirrorsList, Bool.and_eq_true] at h
      simp [ih vs h.2]

theorem mirrorsList_append (ns1 ns2 : List Node) (vs1 vs2 : List View)
    (h1 : mirrorsList ns1 vs1 = true) (h2 : mirrorsList ns2 vs2 = true) :
    mirrorsList (ns1 ++ ns2) (vs1 ++ vs2) = true := by
  induction ns1 generalizing vs1 with
  | nil => cases vs1 with
    | nil => simpa using h2
    | cons v vs => simp [mirrorsList] at h1
  | cons n ns ih =>
    cases vs1 with
    | nil => simp [mirrorsList] at h1
    | cons v vs =>
      simp only [mirrorsList, Bool.and_eq_true] at h1
      simp only [List.cons_append, mirrorsList, Bool.and_eq_true]
      exact ⟨h1.1, ih vs h1.2⟩

theorem mirrors_of_parts (n : Node) (v : View) (hid : n.id = v.id)
    (hch : mirrorsList n.children v.children = true) : mirrors n v = true := by
  cases n; cases v
  simp only [Node.id_mk_node, View.id_mk] at hid
  simp only [Node.children_mk_node, View.children_mk] at hch
  simp [mirrors, hid, hch]

theorem mirrors_children (n : Node) (v : View) (h : mirrors n v = true) :
    mirrorsList n.children v.children = true := by
  cases n; cases v
  simp only [mirrors, Bool.and_eq_true] at h
  simpa using h.2

/-- Main induction for C9: the per-node diff always leaves the cached
node mirroring the live view, and positional pair diffing mirrors the
consumed prefix of the view list. -/
theorem diff_mirrors_all :
    (∀ v, ∀ n : Node, mirrors (Node.diff n v).1 v = true) ∧
    (∀ vs, ∀ ns : List Node, ns.length ≤ vs.length →
      (Node.diffZip ns vs).1.length = ns.length ∧
      mirrorsList (Node.diffZip ns vs).1 (vs.take ns.length) = true) := by
  refine view_ind _ _ ?_ ?_ ?_
  · intro i t a inn st ch hch n
    by_cases hid : i = n.id
    · by_cases hleaf : n.children.length = 0 ∧ ch.length = 0
      · -- leaf pair: the result keeps the node's empty children list
        have hnc := List.length_eq_zero.1 hleaf.1
        have hvc := List.length_eq_zero.1 hleaf.2
        subst hvc
        by_cases hst : st = n.state
        · have hd : Node.diff n (View.mk i t a inn st []) = (n, []) := by
            simp [Node.diff, hid, hst, hnc]
          rw [hd]
          exact mirrors_of_parts n _ (by simp [hid]) (by simp [hnc, mirrorsList])
        · have hd : (Node.diff n (View.mk i t a inn st [])).1 =
              ((n.withState st).diff_attrs a).1 := by
            simp [Node.diff, hid, hst, hnc]
          rw [hd]
          exact mirrors_of_parts _ _ (by simp [hid])
            (by simp [hnc, mirrorsList])
      · -- container: bridge to diff_children
        rw [Node.diff_container n (View.mk i t a inn st ch) (by simp [hid])
          (by simpa using hleaf)]
        set m := if (View.mk i t a inn st ch).state ≠ n.state
          then ((n.withState (View.mk i t a inn st ch).state).diff_attrs
            (View.mk i t a inn st ch).attrs).1
          else n with hm
        have hmid : m.id = n.id := by
          rw [hm]; split <;> simp
        have hmch : m.children = n.children := by
          rw [hm]; split <;> simp
        refine mirrors_of_parts _ _ (by simp [Node.diff_children, hmid, hid]) ?_
        simp only [Node.diff_children, View.children_mk, hmch,
          Node.withChildren_children]
        rcases lt_trichotomy ch.length n.children.length with hlt | heq | hgt
        · -- shrink branch
          rw [if_pos (show (ch.length : Int) - (n.children.length : Int) < 0 by
              omega),
            if_neg (show ¬((0 : Int) < (ch.length : Int) - (n.children.length : Int)) by
              omega)]
          have hlen : (List.take ch.length n.children).length = ch.length := by
            simp [List.length_take]; omega
          obtain ⟨hz1, hz2⟩ := hch (List.take ch.length n.children)
            (le_of_eq hlen)
          rw [hlen, List.take_length] at hz2
          simpa using hz2
        · -- equal lengths
          rw [if_neg (show ¬((ch.length : Int) - (n.children.length : Int) < 0) by
              omega),
            if_neg (show ¬((0 : Int) < (ch.length : Int) - (n.children.length : Int)) by
              omega)]
          obtain ⟨hz1, hz2⟩ := hch n.children (le_of_eq heq.symm)
          have htk : List.take n.children.length ch = ch := by
            rw [← heq]; exact List.take_length ch
          rw [htk] at hz2
          simpa using hz2
        · -- grow branch
          rw [if_neg (show ¬((ch.length : Int) - (n.children.length : Int) < 0) by
              omega),
            if_pos (show (0 : Int) < (ch.length : Int) - (n.children.length : Int) by
              omega)]
          obtain ⟨hz1, hz2⟩ := hch n.children (le_of_lt hgt)
          have happ := map_new_mirrors (List.drop n.children.length ch)
          have hcomb := mirrorsList_append _ _ _ _ hz2 happ
          rw [List.take_append_drop] at hcomb
          simpa [Node.appendNew_eq] using hcomb
    · -- identity mismatch: full rebuild mirrors by construction
      have hd : Node.diff n (View.mk i t a inn st ch) =
          ((Node.new (View.mk i t a inn st ch)).1,
           [Cmd.ReplaceElement n.id (Node.new (View.mk i t a inn st ch)).2]) := by
        simp [Node.diff, hid]
      rw [hd]
      exact new_mirrors.1 (View.mk i t a inn st ch)
  · intro ns hlen
    have : ns = [] := List.length_eq_zero.1 (Nat.le_zero.1 (by simpa using hlen))
    subst this
    exact ⟨rfl, rfl⟩
  · intro v vs hv hvs ns hlen
    cases ns with
    | nil => exact ⟨rfl, rfl⟩
    | cons n ns' =>
      simp only [Node.diffZip]
      have hlen' : ns'.length ≤ vs.length := by simpa using hlen
      obtain ⟨h1, h2⟩ := hvs ns' hlen'
      constructor
      · simp [h1]
      · simp only [List.length_cons, List.take_succ_cons, mirrorsList,
          Bool.and_eq_true]
        exact ⟨hv n, h2⟩

/-- C9: after the per-node diff has run, the cached node's children list
positionally mirrors the live view's children list (same length, same
positional ids, recursively); full construction establishes the same. -/
theorem c9_reconciled_children_match :
    (∀ v, mirrors (Node.new v).1 v = true) ∧
    (∀ (n : Node) (v : View), mirrors (Node.diff n v).1 v = true) ∧
    (∀ (n : Node) (v : View),
      ((Node.diff n v).1).children.length = v.children.length) :=
  ⟨new_mirrors.1,
   fun n v => diff_mirrors_all.1 v n,
   fun n v =>
     mirrorsList_length _ _ (mirrors_children _ _ (diff_mirrors_all.1 v n))⟩

/-! ### No-op idempotence (C6) -/

theorem unchangedListB_length (ns : List Node) (vs : List View)
    (h : unchangedListB ns vs = true) : ns.length = vs.length := by
  induction ns generalizing vs with
  | nil => cases vs with
    | nil => rfl
    | cons v vs => simp [unchangedListB] at h
  | cons n ns ih =>
    cases vs with
    | nil => simp [unchangedListB] at h
    | cons v vs =>
      simp only [unchangedListB, Bool.and_eq_true] at h
      simp [ih vs h.2]

/-- Main induction for C6: diffing an unchanged view against its cached
node is the identity and emits nothing, pointwise over pairs as well. -/
theorem diff_unchanged_all :
    (∀ v, ∀ n : Node, unchangedB n v = true → Node.diff n v = (n, [])) ∧
    (∀ vs, ∀ ns : List Node, unchangedListB ns vs = true →
      Node.diffZip ns vs = (ns, [])) := by
  refine view_ind _ _ ?_ ?_ ?_
  · intro i t a inn st ch hch n h
    cases n with
    | mk nt ni nval nst na nch =>
      simp only [unchangedB, Bool.and_eq_true, beq_iff_eq] at h
      obtain ⟨⟨⟨hid, hstate⟩, hattrs⟩, hlist⟩ := h
      have hlen := unchangedListB_length nch ch hlist
      by_cases hleaf : nch.length = 0 ∧ ch.length = 0
      · have hnc := List.length_eq_zero.1 hleaf.1
        have hvc := List.length_eq_zero.1 hleaf.2
        subst hnc; subst hvc
        simp [Node.diff, hid, hstate]
      · have hd := Node.diff_container (Node.mk nt ni nval nst na nch)
          (View.mk i t a inn st ch) (by simp [hid]) (by simpa using hleaf)
        rw [hd]
        have hz := hch nch hlist
        have c1 : ¬((ch.length : Int) - (nch.length : Int) < 0) := by omega
        have c2 : ¬((0 : Int) < (ch.length : Int) - (nch.length : Int)) := by
          omega
        simp [Node.diff_children, Node.withChildren, hstate, c1, c2, hz]
  · intro ns h
    cases ns with
    | nil => rfl
    | cons n ns' => simp [unchangedListB] at h
  · intro v vs hv hvs ns h
    cases ns with
    | nil => simp [unchangedListB] at h
    | cons n ns' =>
      simp only [unchangedListB, Bool.and_eq_true] at h
      simp [Node.diffZip, hv n h.1, hvs ns' h.2]

/-- `check_marked` on an unchanged subtree leaves the node intact and
emits nothing, whatever the dirty set. -/
theorem check_marked_unchanged_all :
    (∀ v, ∀ (n : Node) (m : Finset String), unchangedB n v = true →
      (Node.check_marked n m v).1 = n ∧ (Node.check_marked n m v).2.2 = []) ∧
    (∀ vs, ∀ (ns : List Node) (m : Finset String),
      unchangedListB ns vs = true →
      (Node.checkMarkedList ns m vs).1 = ns ∧
      (Node.checkMarkedList ns m vs).2.2 = []) := by
  refine view_ind _ _ ?_ ?_ ?_
  · intro i t a inn st ch hch n m h
    by_cases hmem : n.id ∈ m
    · have hd := diff_unchanged_all.1 (View.mk i t a inn st ch) n h
      simp [Node.check_marked, hmem, hd]
    · have hlist : unchangedListB n.children ch = true := by
        cases n with
        | mk nt ni nval nst na nch =>
          simp only [unchangedB, Bool.and_eq_true] at h
          simpa using h.2
      obtain ⟨h1, h2⟩ := hch n.children m hlist
      simp [Node.check_marked, hmem, h1, h2]
  · intro ns m h
    cases ns with
    | nil => exact ⟨rfl, rfl⟩
    | cons n ns' => exact ⟨rfl, rfl⟩
  · intro v vs hv hvs ns m h
    cases ns with
    | nil => simp [unchangedListB] at h
    | cons n ns' =>
      simp only [unchangedListB, Bool.and_eq_true] at h
      obtain ⟨ha1, ha2⟩ := hv n m h.1
      obtain ⟨hb1, hb2⟩ :=
        hvs ns' (Node.check_marked n m v).2.1 h.2
      simp [Node.checkMarkedList, ha1, ha2, hb1, hb2]

/-- C6: marking any set of ids and diffing a tree whose live view is
unchanged (same ids, fingerprints, attributes and children lists,
recursively) emits zero mutation commands and leaves the cache intact. -/
theorem c6_noop_pass_emits_nothing (n : Node) (v : View) (m : Finset String)
    (h : unchangedB n v = true) :
    Tree.diff ⟨n, m⟩ v = (⟨n, ∅⟩, []) := by
  obtain ⟨h1, h2⟩ := check_marked_unchanged_all.1 v n m h
  simp [Tree.diff, h1, h2]

/-- C6 witness: a concrete unchanged two-level tree with its root marked
diffs to zero commands. -/
theorem c6_witness :
    unchangedB
        (Node.mk "div" "a" "" 5 [("k", some "v")]
          [Node.mk "span" "b" "" 1 [] []])
        (View.mk "a" "div" [("k", some "v")] "x" 5
          [View.mk "b" "span" [] "y" 1 []]) = true ∧
    Tree.diff
        ⟨Node.mk "div" "a" "" 5 [("k", some "v")]
            [Node.mk "span" "b" "" 1 [] []],
          insert "a" ∅⟩
        (View.mk "a" "div" [("k", some "v")] "x" 5
          [View.mk "b" "span" [] "y" 1 []]) =
      (⟨Node.mk "div" "a" "" 5 [("k", some "v")]
          [Node.mk "span" "b" "" 1 [] []], ∅⟩, []) :=
  ⟨by decide,
   c6_noop_pass_emits_nothing
     (Node.mk "div" "a" "" 5 [("k", some "v")]
       [Node.mk "span" "b" "" 1 [] []])
     (View.mk "a" "div" [("k", some "v")] "x" 5
       [View.mk "b" "span" [] "y" 1 []])
     (insert "a" ∅) (by decide)⟩

/-! ### The reserved value slot (C10) -/

theorem valuesEmpty_mk (t i val : String) (st : Nat) (a : Attributes)
    (ch : List Node) :
    valuesEmpty (Node.mk t i val st a ch) =
      ((val == "") && valuesEmptyList ch) := by
  simp [valuesEmpty]

theorem valuesEmpty_parts (n : Node) :
    valuesEmpty n = true ↔
      (n.value = "" ∧ valuesEmptyList n.children = true) := by
  cases n
  simp [valuesEmpty]

theorem valuesEmptyList_append (a b : List Node) :
    valuesEmptyList (a ++ b) = (valuesEmptyList a && valuesEmptyList b) := by
  induction a with
  | nil => simp [valuesEmptyList]
  | cons n ns ih => simp [valuesEmptyList, ih, Bool.and_assoc]

theorem valuesEmptyList_take (l : List Node) (k : Nat)
    (h : valuesEmptyList l = true) : valuesEmptyList (l.take k) = true := by
  induction l generalizing k with
  | nil => simp [valuesEmptyList]
  | cons n ns ih =>
    cases k with
    | zero => rfl
    | succ k' =>
      simp only [valuesEmptyList, Bool.and_eq_true] at h
      simp only [List.take_succ_cons, valuesEmptyList, Bool.and_eq_true]
      exact ⟨h.1, ih k' h.2⟩

theorem new_valuesEmpty :
    (∀ v, valuesEmpty (Node.new v).1 = true) ∧
    (∀ vs, valuesEmptyList (Node.newList vs).1 = true) := by
  refine view_ind _ _ ?_ ?_ ?_
  · intro i t a inn st ch hch
    simp [Node.new, valuesEmpty, hch]
  · rfl
  · intro v vs hv hvs
    simp [Node.newList, valuesEmptyList, hv, hvs]

theorem map_new_valuesEmpty (vs : List View) :
    valuesEmptyList (vs.map (fun v => (Node.new v).1)) = true := by
  induction vs with
  | nil => rfl
  | cons v vs ih => simp [valuesEmptyList, new_valuesEmpty.1 v, ih]

theorem diff_children_valuesEmpty (m : Node) (vs : List View)
    (hzip : ∀ ns, valuesEmptyList ns = true →
      valuesEmptyList (Node.diffZip ns vs).1 = true)
    (h : valuesEmpty m = true) :
    valuesEmpty (Node.diff_children m vs).1 = true := by
  obtain ⟨hval, hch⟩ := (valuesEmpty_parts m).1 h
  unfold Node.diff_children
  refine (valuesEmpty_parts _).2 ⟨by simpa using hval, ?_⟩
  simp only [Node.withChildren_children, valuesEmptyList_append,
    Bool.and_eq_true]
  constructor
  · split
    · exact hzip _ (valuesEmptyList_take m.children vs.length hch)
    · exact hzip _ hch
  · split
    · rw [Node.appendNew_eq]
      exact map_new_valuesEmpty _
    · rfl

/-- Main induction for C10: the per-node diff never writes the reserved
`value` slot, so a tree whose slots are all empty keeps them empty. -/
theorem diff_valuesEmpty_all :
    (∀ v, ∀ n : Node, valuesEmpty n = true →
      valuesEmpty (Node.diff n v).1 = true) ∧
    (∀ vs, ∀ ns : List Node, valuesEmptyList ns = true →
      valuesEmptyList (Node.diffZip ns vs).1 = true) := by
  refine view_ind _ _ ?_ ?_ ?_
  · intro i t a inn st ch hch n h
    by_cases hid : i = n.id
    · by_cases hleaf : n.children.length = 0 ∧ ch.length = 0
      · have hnc := List.length_eq_zero.1 hleaf.1
        have hvc := List.length_eq_zero.1 hleaf.2
        subst hvc
        obtain ⟨hval, hchl⟩ := (valuesEmpty_parts n).1 h
        by_cases hst : st = n.state
        · have hd : Node.diff n (View.mk i t a inn st []) = (n, []) := by
            simp [Node.diff, hid, hst, hnc]
          rw [hd]; exact h
        · have hd : (Node.diff n (View.mk i t a inn st [])).1 =
              ((n.withState st).diff_attrs a).1 := by
            simp [Node.diff, hid, hst, hnc]
          rw [hd, Node.diff_attrs_fst]
          refine (valuesEmpty_parts _).2 ?_
          simpa using ⟨hval, hchl⟩
      · rw [Node.diff_container n (View.mk i t a inn st ch) (by simp [hid])
          (by simpa using hleaf)]
        refine diff_children_valuesEmpty _ _ (fun ns hns => hch ns hns) ?_
        split
        · rw [Node.diff_attrs_fst]
          refine (valuesEmpty_parts _).2 ?_
          simpa using (valuesEmpty_parts n).1 h
        · exact h
    · have hd : (Node.diff n (View.mk i t a inn st ch)).1 =
          (Node.new (View.mk i t a inn st ch)).1 := by
        simp [Node.diff, hid]
      rw [hd]
      exact new_valuesEmpty.1 _
  · intro ns h
    cases ns with
    | nil => exact h
    | cons n ns' => exact h
  · intro v vs hv hvs ns h
    cases ns with
    | nil => exact h
    | cons n ns' =>
      simp only [valuesEmptyList, Bool.and_eq_true] at h
      simp only [Node.diffZip, valuesEmptyList, Bool.and_eq_true]
      exact ⟨hv n h.1, hvs ns' h.2⟩

/-- `check_marked` never writes the reserved `value` slot either. -/
theorem check_marked_valuesEmpty_all :
    (∀ v, ∀ (n : Node) (m : Finset String), valuesEmpty n = true →
      valuesEmpty (Node.check_marked n m v).1 = true) ∧
    (∀ vs, ∀ (ns : List Node) (m : Finset String),
      valuesEmptyList ns = true →
      valuesEmptyList (Node.checkMarkedList ns m vs).1 = true) := by
  refine view_ind _ _ ?_ ?_ ?_
  · intro i t a inn st ch hch n m h
    by_cases hmem : n.id ∈ m
    · simp only [Node.check_marked]
      rw [if_pos hmem]
      exact diff_valuesEmpty_all.1 _ n h
    · simp only [Node.check_marked]
      rw [if_neg hmem]
      refine (valuesEmpty_parts _).2 ?_
      obtain ⟨hval, hchl⟩ := (valuesEmpty_parts n).1 h
      exact ⟨by simpa using hval, by simpa using hch n.children m hchl⟩
  · intro ns m h
    cases ns with
    | nil => exact h
    | cons n ns' => exact h
  · intro v vs hv hvs ns m h
    cases ns with
    | nil => exact h
    | cons n ns' =>
      simp only [valuesEmptyList, Bool.and_eq_true] at h
      simp only [Node.checkMarkedList, valuesEmptyList, Bool.and_eq_true]
      exact ⟨hv n m h.1, hvs ns' _ h.2⟩

/-- C10: the reserved input-element value slot is initialised to the
empty string by construction and is never written by any operation of
the core (per-node diff, attribute diff, children diff, marked search,
tree construction, full diff pass). -/
theorem c10_value_slot_always_empty :
    (∀ v, valuesEmpty (Node.new v).1 = true) ∧
    (∀ (n : Node) (v : View), valuesEmpty n = true →
      valuesEmpty (Node.diff n v).1 = true) ∧
    (∀ (n : Node) (a : Attributes), valuesEmpty n = true →
      valuesEmpty (Node.diff_attrs n a).1 = true) ∧
    (∀ (n : Node) (vs : List View), valuesEmpty n = true →
      valuesEmpty (Node.diff_children n vs).1 = true) ∧
    (∀ (n : Node) (m : Finset String) (v : View), valuesEmpty n = true →
      valuesEmpty (Node.check_marked n m v).1 = true) ∧
    (∀ (pid : String) (v : View), valuesEmpty (Tree.new pid v).1.node = true) ∧
    (∀ (t : Tree) (v : View), valuesEmpty t.node = true →
      valuesEmpty (Tree.diff t v).1.node = true) :=
  ⟨new_valuesEmpty.1,
   fun n v h => diff_valuesEmpty_all.1 v n h,
   fun n a h => by
     rw [Node.diff_attrs_fst]
     exact (valuesEmpty_parts _).2 (by simpa using (valuesEmpty_parts n).1 h),
   fun n vs h =>
     diff_children_valuesEmpty n vs (fun ns hns => diff_valuesEmpty_all.2 vs ns hns) h,
   fun n m v h => check_marked_valuesEmpty_all.1 v n m h,
   fun pid v => new_valuesEmpty.1 v,
   fun t v h => check_marked_valuesEmpty_all.1 v t.node t.updated h⟩

/-- C10 witness: value slots stay empty across a concrete diff. -/
theorem c10_witness :
    valuesEmpty (Node.mk "div" "a" "" 5 [] [Node.mk "span" "b" "" 1 [] []]) = true ∧
    valuesEmpty
        (Node.diff (Node.mk "div" "a" "" 5 [] [Node.mk "span" "b" "" 1 [] []])
          (View.mk "a" "div" [] "" 9 [View.mk "c" "span" [] "y" 2 []])).1 = true :=
  ⟨by decide,
   c10_value_slot_always_empty.2.1
     (Node.mk "div" "a" "" 5 [] [Node.mk "span" "b" "" 1 [] []])
     (View.mk "a" "div" [] "" 9 [View.mk "c" "span" [] "y" 2 []])
     (by decide)⟩

/-! ### Drained dirty set and residual ids (C8) -/

theorem nodeIds_parts (n : Node) (x : String) (h : x ∉ nodeIds n) :
    x ≠ n.id ∧ x ∉ nodeIdsList n.children := by
  cases n with
  | mk nt ni nval nst na nch =>
    simp only [nodeIds, List.mem_cons, not_or] at h
    exact ⟨h.1, by simpa using h.2⟩

theorem nodeIdsList_parts (n : Node) (ns : List Node) (x : String)
    (h : x ∉ nodeIdsList (n :: ns)) :
    x ∉ nodeIds n ∧ x ∉ nodeIdsList ns := by
  simp only [nodeIdsList, List.mem_append, not_or] at h
  exact h

/-- An id that names no node of the cached tree has no effect on the
marked search: the resulting node and commands are unchanged, and the
id is merely carried through the threaded dirty set. -/
theorem check_marked_foreign_id (x : String) :
    (∀ v, ∀ (n : Node) (m : Finset String), x ∉ nodeIds n →
      Node.check_marked n (insert x m) v =
        ((Node.check_marked n m v).1,
         insert x (Node.check_marked n m v).2.1,
         (Node.check_marked n m v).2.2)) ∧
    (∀ vs, ∀ (ns : List Node) (m : Finset String), x ∉ nodeIdsList ns →
      Node.checkMarkedList ns (insert x m) vs =
        ((Node.checkMarkedList ns m vs).1,
         insert x (Node.checkMarkedList ns m vs).2.1,
         (Node.checkMarkedList ns m vs).2.2)) := by
  refine view_ind _ _ ?_ ?_ ?_
  · intro i t a inn st ch hch n m hx
    obtain ⟨hxid, hxch⟩ := nodeIds_parts n x hx
    by_cases hmem : n.id ∈ m
    · have hmem' : n.id ∈ insert x m := Finset.mem_insert_of_mem hmem
      simp [Node.check_marked, hmem, hmem',
        Finset.erase_insert_of_ne hxid]
    · have hmem' : n.id ∉ insert x m := by
        simp [Finset.mem_insert, hmem]
        exact fun e => hxid e.symm
      simp [Node.check_marked, hmem, hmem', hch n.children m hxch]
  · intro ns m hx
    cases ns with
    | nil => rfl
    | cons n ns' => rfl
  · intro v vs hv hvs ns m hx
    cases ns with
    | nil => rfl
    | cons n ns' =>
      obtain ⟨hx1, hx2⟩ := nodeIdsList_parts n ns' x hx
      simp [Node.checkMarkedList, hv n m hx1,
        hvs ns' (Node.check_marked n m v).2.1 hx2]

/-- C8: every diff pass ends with an empty dirty set, and a residual id
that names no node of the cached tree changes neither the resulting
cache nor the emitted commands — it is discarded silently. -/
theorem c8_dirty_set_drained_residuals_silent :
    (∀ (t : Tree) (v : View), ((Tree.diff t v).1).updated = ∅) ∧
    (∀ (x : String) (n : Node) (m : Finset String) (v : View),
      x ∉ nodeIds n →
      (Node.check_marked n (insert x m) v).1 = (Node.check_marked n m v).1 ∧
      (Node.check_marked n (insert x m) v).2.2 =
        (Node.check_marked n m v).2.2) ∧
    (∀ (x : String) (t : Tree) (v : View), x ∉ nodeIds t.node →
      Tree.diff ⟨t.node, insert x t.updated⟩ v = Tree.diff t v) :=
  ⟨fun t v => rfl,
   fun x n m v hx => by
     rw [(check_marked_foreign_id x).1 v n m hx]
     exact ⟨rfl, rfl⟩,
   fun x t v hx => by
     simp [Tree.diff, (check_marked_foreign_id x).1 v t.node t.updated hx]⟩

/-- C8 witness: an id absent from the tree (for instance one whose node
was removed by this very batch) is dropped with no extra command, and
the pass drains the dirty set. -/
theorem c8_witness :
    ("z" ∉ nodeIds (Node.mk "div" "a" "" 5 [] [])) ∧
    Tree.diff
        ⟨Node.mk "div" "a" "" 5 [] [], insert "z" (insert "a" ∅)⟩
        (View.mk "a" "div" [] "x" 6 []) =
      Tree.diff ⟨Node.mk "div" "a" "" 5 [] [], insert "a" ∅⟩
        (View.mk "a" "div" [] "x" 6 []) ∧
    ((Tree.diff
        ⟨Node.mk "div" "a" "" 5 [] [], insert "z" (insert "a" ∅)⟩
        (View.mk "a" "div" [] "x" 6 [])).1).updated = ∅ :=
  ⟨by decide,
   c8_dirty_set_drained_residuals_silent.2.2 "z"
     ⟨Node.mk "div" "a" "" 5 [] [], insert "a" ∅⟩
     (View.mk "a" "div" [] "x" 6 []) (by decide),
   c8_dirty_set_drained_residuals_silent.1
     ⟨Node.mk "div" "a" "" 5 [] [], insert "z" (insert "a" ∅)⟩
     (View.mk "a" "div" [] "x" 6 [])⟩

/-! ### Batched marking (C5) -/

/-- A marked node is removed from the set and diffed; the walk stops
below it. -/
theorem check_marked_hit (n : Node) (m : Finset String) (v : View)
    (h : n.id ∈ m) :
    Node.check_marked n m v =
      ((Node.diff n v).1, m.erase n.id, (Node.diff n v).2) := by
  cases v
  simp [Node.check_marked, h]

/-- An unmarked node is not diffed: its own fields stay untouched and
the walk merely searches its children. -/
theorem check_marked_miss (n : Node) (m : Finset String) (v : View)
    (h : n.id ∉ m) :
    Node.check_marked n m v =
      (n.withChildren (Node.checkMarkedList n.children m v.children).1,
       (Node.checkMarkedList n.children m v.children).2.1,
       (Node.checkMarkedList n.children m v.children).2.2) := by
  cases v
  simp [Node.check_marked, h]

/-- C5: marking an id `a` sitting on one child branch and an id `b`
sitting deeper inside an unrelated branch, in either order and with
duplicates collapsing, then running one diff pass, diffs each marked
node exactly once: the pass replaces exactly the two marked slots with
their single diffs, concatenates their commands once each, and never
diffs the unmarked root or intermediate node. -/
theorem c5_two_marks_each_diffed_once
    (a b rid qi rtag rval qt qv : String) (rst qs : Nat)
    (rattrs qa : Attributes) (p qc : Node) (vp vqc : View)
    (vrtag vqtag : String) (vrattrs vqattrs : Attributes)
    (vrinn vqinn : String) (vrst vqst : Nat) (w1 w2 : View)
    (R : Node) (VR : View)
    (hab : a ≠ b) (hpa : p.id = a) (hqcb : qc.id = b)
    (hra : rid ≠ a) (hrb : rid ≠ b) (_hqa : qi ≠ a) (hqb : qi ≠ b)
    (hw1 : w1.id = a) (hw2 : w2.id = b)
    (hR : R = Node.mk rtag rid rval rst rattrs
      [p, Node.mk qt qi qv qs qa [qc]])
    (hVR : VR = View.mk rid vrtag vrattrs vrinn vrst
      [vp, View.mk qi vqtag vqattrs vqinn vqst [vqc]]) :
    (((Tree.mk R ∅).update w1).update w2).updated =
      (((Tree.mk R ∅).update w2).update w1).updated ∧
    ((((Tree.mk R ∅).update w1).update w1).update w2).updated =
      (((Tree.mk R ∅).update w1).update w2).updated ∧
    Tree.diff (((Tree.mk R ∅).update w1).update w2) VR =
      (⟨Node.mk rtag rid rval rst rattrs
          [(Node.diff p vp).1,
           Node.mk qt qi qv qs qa [(Node.diff qc vqc).1]], ∅⟩,
       (Node.diff p vp).2 ++ (Node.diff qc vqc).2) := by
  subst hR hVR
  refine ⟨?_, ?_, ?_⟩
  · simp [Tree.update]
    exact Finset.pair_comm w2.id w1.id
  · simp [Tree.update, Finset.insert_idem]
  · have hrmem : rid ∉ insert b (insert a (∅ : Finset String)) := by
      simp [hra, hrb]
    have hpmem : a ∈ insert b (insert a (∅ : Finset String)) := by simp
    have herase : (insert b (insert a (∅ : Finset String))).erase a =
        insert b ∅ := by
      rw [Finset.erase_insert_of_ne (Ne.symm hab),
        Finset.erase_insert (Finset.not_mem_empty a)]
    have hqmem : qi ∉ insert b (∅ : Finset String) := by simp [hqb]
    have hqcmem : b ∈ insert b (∅ : Finset String) := by simp
    have hberase : (insert b (∅ : Finset String)).erase b = ∅ :=
      Finset.erase_insert (Finset.not_mem_empty b)
    have hroot : (Node.mk rtag rid rval rst rattrs
        [p, Node.mk qt qi qv qs qa [qc]]).id ∉
        insert b (insert a (∅ : Finset String)) := by simpa using hrmem
    simp only [Tree.diff, Tree.update, hw1, hw2]
    rw [check_marked_miss _ _ _ hroot]
    simp only [Node.children_mk_node, View.children_mk, Node.checkMarkedList]
    rw [check_marked_hit p _ vp (by rw [hpa]; exact hpmem)]
    simp only [hpa, herase]
    rw [check_marked_miss (Node.mk qt qi qv qs qa [qc]) _ _
      (by simpa using hqmem)]
    simp only [Node.children_mk_node, View.children_mk, Node.checkMarkedList]
    rw [check_marked_hit qc _ vqc (by rw [hqcb]; exact hqcmem)]
    simp [Node.withChildren, hqcb, hberase]

/-- C5 witness: two concretely marked ids (one per branch), marked in
either order with a duplicate, are each diffed exactly once. -/
theorem c5_witness :
    (("a" : String) ≠ "b") ∧
    Tree.diff
        (((Tree.mk
            (Node.mk "div" "r" "" 0 []
              [Node.mk "div" "a" "" 1 [] [],
               Node.mk "div" "q" "" 2 []
                 [Node.mk "div" "b" "" 3 [] []]]) ∅).update
          (View.mk "a" "div" [] "" 0 [])).update
          (View.mk "b" "div" [] "" 0 []))
        (View.mk "r" "div" [] "" 0
          [View.mk "a" "div" [] "x" 7 [],
           View.mk "q" "div" [] "" 2
             [View.mk "b" "div" [] "y" 8 []]]) =
      (⟨Node.mk "div" "r" "" 0 []
          [(Node.diff (Node.mk "div" "a" "" 1 [] [])
              (View.mk "a" "div" [] "x" 7 [])).1,
           Node.mk "div" "q" "" 2 []
             [(Node.diff (Node.mk "div" "b" "" 3 [] [])
                 (View.mk "b" "div" [] "y" 8 [])).1]], ∅⟩,
       (Node.diff (Node.mk "div" "a" "" 1 [] [])
           (View.mk "a" "div" [] "x" 7 [])).2 ++
         (Node.diff (Node.mk "div" "b" "" 3 [] [])
             (View.mk "b" "div" [] "y" 8 [])).2) :=
  ⟨by decide,
   (c5_two_marks_each_diffed_once "a" "b" "r" "q" "div" "" "div" "" 0 2
       [] [] (Node.mk "div" "a" "" 1 [] []) (Node.mk "div" "b" "" 3 [] [])
       (View.mk "a" "div" [] "x" 7 []) (View.mk "b" "div" [] "y" 8 [])
       "div" "div" [] [] "" "" 0 2
       (View.mk "a" "div" [] "" 0 []) (View.mk "b" "div" [] "" 0 [])
       (Node.mk "div" "r" "" 0 []
         [Node.mk "div" "a" "" 1 [] [],
          Node.mk "div" "q" "" 2 [] [Node.mk "div" "b" "" 3 [] []]])
       (View.mk "r" "div" [] "" 0
         [View.mk "a" "div" [] "x" 7 [],
          View.mk "q" "div" [] "" 2 [View.mk "b" "div" [] "y" 8 []]])
       (by decide) rfl rfl (by decide) (by decide) (by decide) (by decide)
       rfl rfl rfl rfl).2.2⟩

theorem c1_removal_loop_off_by_one :
    Node.diff_children
        (Node.mk "div" "p" "" 0 []
          [Node.mk "div" "A" "" 1 [] [], Node.mk "div" "B" "" 2 [] [],
           Node.mk "div" "C" "" 3 [] [], Node.mk "div" "D" "" 4 [] []])
        [View.mk "A" "div" [] "" 1 [], View.mk "B" "div" [] "" 2 []] =
      (Node.mk "div" "p" "" 0 []
        [Node.mk "div" "A" "" 1 [] [], Node.mk "div" "B" "" 2 [] []],
       [Cmd.RemoveTrailingChildren "p" 2]) ∧
    jsRemoveLoop 0 2 = 3 ∧ jsRemoveLoop 0 2 ≠ 2 := by
  refine ⟨rfl, ?_, ?_⟩ <;> simp [jsRemoveLoop]

end Brunhild
